import Mathlib

/-!
Verification of the statistical fitting pipeline of the defect-analysis
dashboard (`src/pages/Dashboard.jsx`, first revision in the file, which is the
one mounted by `App.jsx`).  Numbers are embedded as rationals (`ℚ`): the
JavaScript doubles carry no `NaN`/`Infinity` here, so the source's
`isNaN`/`isFinite` guards are vacuously true, and the one value the pipeline
produces that is genuinely infinite (`chiSquare = Infinity`) is modelled as
`Option ℚ` with `none` standing for `Infinity`.  The special-function library
(jStat) is an external collaborator per the spec and is abstracted as a bundle
of rational-valued functions.
-/

namespace DefectAnalyzer

/-- Constants from Dashboard.jsx: `MIN_EXPECTED_FREQ = 5`. -/
def MIN_EXPECTED_FREQ : ℚ := 5

/-- Constants from Dashboard.jsx: `MIN_BINS = 3`. -/
def MIN_BINS : ℕ := 3

/-- Constants from Dashboard.jsx: `OUTLIER_THRESHOLD_PROBABILITY = 0.001`. -/
def OUTLIER_THRESHOLD_PROBABILITY : ℚ := 1 / 1000

/-- The external special-function library (jStat), abstracted: the core
consumes these primitives but does not implement them (spec §2, §6). -/
structure Jstat where
  chisquareCdf : ℚ → ℕ → ℚ
  chisquareInv : ℚ → ℕ → ℚ
  poissonPdf : ℕ → ℚ → ℚ
  /-- Model of `jStat.binomial.pdf k n p`; in the theoretical-frequency builder the
  source computes this inline via `gammaln`/`exp`/`log`, which is the same
  external-primitive composite. -/
  binomialPdf : ℕ → ℤ → ℚ → ℚ
  negbinPdf : ℕ → ℚ → ℚ → ℚ
  sqrt : ℚ → ℚ

/-- A batch record `{ total, defects }`.  Per the spec's data model (§3)
and its ingestion contract (§6) both fields are non-negative integers. -/
structure Record where
  total : ℕ
  defects : ℕ
deriving Repr, DecidableEq

/-- JS `Math.round` on a rational (round half toward positive infinity). -/
def jsRound (q : ℚ) : ℤ := ⌊q + 1 / 2⌋

/-- Model of `Math.max(...list)` for a list of naturals (used for `maxDefects`). -/
def maxList (l : List ℕ) : ℕ := l.foldr max 0

/-- Model of `Math.ceil(a / b)` for naturals. -/
def ceilDiv (a b : ℕ) : ℕ := (a + b - 1) / b

/-- Per-distribution output of `computeChiSquare`
(`{ chi2, validBins, df }`); `chi2 = none` models `chi2 = Infinity`. -/
structure Chi2Out where
  chi2 : Option ℚ
  validBins : ℕ
  df : ℕ
deriving Repr, DecidableEq

/-- The accumulation loop of `computeChiSquare` (Dashboard.jsx:666-693): for
each aligned pair `(o, e)`, if `Number.isFinite(e) && e >= MIN_EXPECTED_FREQ
&& Number.isFinite(o) && o >= 0` then add `(o-e)^2/e` to `chi2` and increment
`validBins`, else skip the bin.  Returns `(chi2, validBins)`. -/
def chi2Fold (pairs : List (ℚ × ℚ)) : ℚ × ℕ :=
  pairs.foldl
    (fun acc oe =>
      if MIN_EXPECTED_FREQ ≤ oe.2 ∧ 0 ≤ oe.1 then
        (acc.1 + (oe.1 - oe.2) ^ 2 / oe.2, acc.2 + 1)
      else acc)
    (0, 0)

/-- Model of `computeChiSquare(observed, expected, distName, numParams)`
(Dashboard.jsx:646-731).  Mismatched lengths return `{Infinity, 0, 0}`; after
the accumulation loop, `validBins < numParams + 2` also returns
`{Infinity, 0, 0}`; otherwise `chi2` (guarded by the source's
`isFinite && >= 0` check) with `df = max(validBins - 1 - numParams, 1)`. -/
def computeChiSquare (observed expected : List ℚ) (numParams : ℕ) : Chi2Out :=
  if observed.length ≠ expected.length then ⟨none, 0, 0⟩
  else
    let r := chi2Fold (observed.zip expected)
    if r.2 < numParams + 2 then ⟨none, 0, 0⟩
    else ⟨if 0 ≤ r.1 then some r.1 else none, r.2, max (r.2 - 1 - numParams) 1⟩

/-- The set of bins the source's loop actually includes: expected ≥ 5 and
observed ≥ 0 (the finiteness conjuncts are vacuous over ℚ). -/
def contributingPairs (observed expected : List ℚ) : List (ℚ × ℚ) :=
  (observed.zip expected).filter
    (fun oe => decide (MIN_EXPECTED_FREQ ≤ oe.2) && decide (0 ≤ oe.1))

/-- Spec-words definition (spec §4.5, for comparison with the source): the
number of bins whose expected frequency is ≥ 5 — no other condition. -/
def specValidBins (expected : List ℚ) : ℕ :=
  (expected.filter (fun e => decide (MIN_EXPECTED_FREQ ≤ e))).length

/-- Spec-words definition (spec §4.5): `Σ (observed−expected)²/expected`
over exactly the bins whose expected frequency is ≥ 5. -/
def specChi2Sum (observed expected : List ℚ) : ℚ :=
  (((observed.zip expected).filter
      (fun oe => decide (MIN_EXPECTED_FREQ ≤ oe.2))).map
    (fun oe => (oe.1 - oe.2) ^ 2 / oe.2)).sum

/-! Basic lemmas about the accumulation loop. -/

theorem chi2Fold_eq (pairs : List (ℚ × ℚ)) (a : ℚ) (c : ℕ) :
    pairs.foldl
      (fun acc oe =>
        if MIN_EXPECTED_FREQ ≤ oe.2 ∧ 0 ≤ oe.1 then
          (acc.1 + (oe.1 - oe.2) ^ 2 / oe.2, acc.2 + 1)
        else acc)
      (a, c)
    = (a + ((pairs.filter
          (fun oe => decide (MIN_EXPECTED_FREQ ≤ oe.2) && decide (0 ≤ oe.1))).map
            (fun oe => (oe.1 - oe.2) ^ 2 / oe.2)).sum,
       c + (pairs.filter
          (fun oe => decide (MIN_EXPECTED_FREQ ≤ oe.2) && decide (0 ≤ oe.1))).length) := by
  induction pairs generalizing a c with
  | nil => simp
  | cons hd tl ih =>
    by_cases h : MIN_EXPECTED_FREQ ≤ hd.2 ∧ 0 ≤ hd.1
    · simp only [List.foldl_cons, if_pos h, List.filter_cons,
        decide_eq_true_eq, h]
      rw [ih]
      simp [h.1, h.2]
      ring_nf
      constructor
      · ring
      · omega
    · simp only [List.foldl_cons, if_neg h, List.filter_cons]
      rw [ih]
      have : ¬(decide (MIN_EXPECTED_FREQ ≤ hd.2) && decide (0 ≤ hd.1)) = true := by
        simpa [Decidable.not_and_iff_or_not] using h
      simp [this]

theorem chi2Fold_spec (observed expected : List ℚ) :
    chi2Fold (observed.zip expected)
      = ((( contributingPairs observed expected).map
            (fun oe => (oe.1 - oe.2) ^ 2 / oe.2)).sum,
         (contributingPairs observed expected).length) := by
  unfold chi2Fold contributingPairs
  simpa using chi2Fold_eq (observed.zip expected) 0 0

theorem chi2Fold_fst_nonneg (observed expected : List ℚ) :
    0 ≤ (chi2Fold (observed.zip expected)).1 := by
  rw [chi2Fold_spec]
  apply List.sum_nonneg
  intro x hx
  obtain ⟨oe, hoe, rfl⟩ := List.mem_map.1 hx
  have h2 : MIN_EXPECTED_FREQ ≤ oe.2 := by
    have := List.of_mem_filter hoe
    simp only [Bool.and_eq_true, decide_eq_true_eq] at this
    exact this.1
  have hpos : (0:ℚ) < oe.2 := lt_of_lt_of_le (by norm_num [MIN_EXPECTED_FREQ]) h2
  positivity

theorem contributingPairs_of_nonneg (observed expected : List ℚ)
    (hobs : ∀ o ∈ observed, (0:ℚ) ≤ o) :
    contributingPairs observed expected
      = (observed.zip expected).filter
          (fun oe => decide (MIN_EXPECTED_FREQ ≤ oe.2)) := by
  unfold contributingPairs
  apply List.filter_congr
  intro oe hoe
  have ho : 0 ≤ oe.1 := hobs oe.1 (List.of_mem_zip hoe).1
  simp [ho]

theorem length_filter_zip_snd (observed expected : List ℚ)
    (hl : observed.length = expected.length) :
    ((observed.zip expected).filter
        (fun oe => decide (MIN_EXPECTED_FREQ ≤ oe.2))).length
      = specValidBins expected := by
  unfold specValidBins
  induction observed generalizing expected with
  | nil =>
    cases expected with
    | nil => simp
    | cons e tl => simp at hl
  | cons o otl ih =>
    cases expected with
    | nil => simp at hl
    | cons e etl =>
      simp only [List.length_cons, Nat.succ_inj] at hl
      by_cases h : MIN_EXPECTED_FREQ ≤ e
      · simp [List.zip_cons_cons, List.filter_cons, h, ih etl hl]
      · simp [List.zip_cons_cons, List.filter_cons, h, ih etl hl]

/-- A per-distribution row of `analyzeDistributions`' `results` array
(Dashboard.jsx:765-775 and analogous blocks).  The `params` map is
presentation-only and omitted. -/
structure DistEntry where
  name : String
  chi2 : ℚ
  df : ℕ
  validBins : ℕ
  critical : ℚ
  pValue : ℚ
  numParams : ℕ
  isAccepted : Bool
deriving Repr, DecidableEq

/-- One distribution's block of `analyzeDistributions`
(Dashboard.jsx:751-776; the Binomial and Negative-Binomial blocks are
identical up to renaming): the row is pushed onto `results` only when
`result.df > 0 && Number.isFinite(result.chi2)`; `criticalValue`, `pValue`
(clamped to [0,1]) and `isAccepted = pValue >= significanceLevel` as in the
source. -/
def mkEntry (cdf inv : ℚ → ℕ → ℚ) (significanceLevel : ℚ) (name : String)
    (numParams : ℕ) (observed expected : List ℚ) : Option DistEntry :=
  let r := computeChiSquare observed expected numParams
  match r.chi2 with
  | none => none
  | some c =>
    if 0 < r.df then
      let pValue := max 0 (min 1 (1 - cdf c r.df))
      some
        { name := name, chi2 := c, df := r.df, validBins := r.validBins,
          critical := inv (1 - significanceLevel) r.df, pValue := pValue,
          numParams := numParams,
          isAccepted := decide (significanceLevel ≤ pValue) }
    else none

/-- One step of the `results.reduce` fold selecting the best distribution
(Dashboard.jsx:838-842):
`(curr.isAccepted && curr.pValue > prev.pValue) ||
 (!prev.isAccepted && curr.chi2 < prev.chi2) ? curr : prev`. -/
def bestStep (prev curr : DistEntry) : DistEntry :=
  if (curr.isAccepted = true ∧ prev.pValue < curr.pValue)
      ∨ (¬prev.isAccepted = true ∧ curr.chi2 < prev.chi2) then curr
  else prev

/-- Model of `results.length > 0 ? results.reduce(bestStep) : null`
(JS `reduce` without an initial value folds the tail from the head). -/
def bestSelect (results : List DistEntry) : Option DistEntry :=
  match results with
  | [] => none
  | h :: t => some (t.foldl bestStep h)

/-- Aggregate output of `analyzeDistributions` (Dashboard.jsx:734-875);
the `chiSquareValues`/`pValues` maps read off `results` and are not
duplicated here. -/
structure AnalysisResults where
  results : List DistEntry
  accepted : List DistEntry
  best : Option DistEntry
deriving Repr, DecidableEq

/-- Model of `analyzeDistributions(binnedEmpirical, binnedPoisson, binnedBinomial,
binnedNegBinomial, stats, significanceLevel)` (Dashboard.jsx:734-875):
evaluates the three distributions with `numParams` 1, 2, 2, keeps only the
rows passing the `df > 0 && isFinite(chi2)` guard, filters `accepted`, and
folds `best`. -/
def analyzeDistributions (cdf inv : ℚ → ℕ → ℚ) (significanceLevel : ℚ)
    (binnedEmpirical binnedPoisson binnedBinomial binnedNegBinomial : List ℚ) :
    AnalysisResults :=
  let results :=
    [mkEntry cdf inv significanceLevel "Poisson" 1 binnedEmpirical binnedPoisson,
     mkEntry cdf inv significanceLevel "Binomial" 2 binnedEmpirical binnedBinomial,
     mkEntry cdf inv significanceLevel "NegativeBinomial" 2 binnedEmpirical
       binnedNegBinomial].filterMap id
  { results := results,
    accepted := results.filter (fun r => r.isAccepted),
    best := bestSelect results }

/-! ### Adaptive binning (`createOptimalBins`, Dashboard.jsx:505-592)

The two `while` loops are embedded with an explicit fuel argument that is an
exact model of the loop condition: each iteration consumes one unit, and the
initial fuel equals the number of remaining loop-condition successes
(`maxIdx - e` for the inner loop, `maxIdx + 1 - s` for the outer one), so the
fuel runs out exactly when the source's condition turns false. -/

/-- The inner bin-growing loop (Dashboard.jsx:531-553): keep extending
`currentEnd` and the three expected-frequency sums until all three reach
`MIN_EXPECTED_FREQ` (or the support is exhausted, i.e. the fuel modelling
`currentEnd < maxIndex` runs out).  `l[i] || 0` is `List.getD`. -/
def growEnd (pf bf nf : List ℚ) : ℕ → ℕ → ℚ → ℚ → ℚ → ℕ
  | 0, e, _, _, _ => e
  | fuel + 1, e, sp, sb, sn =>
    if MIN_EXPECTED_FREQ ≤ sp ∧ MIN_EXPECTED_FREQ ≤ sb ∧ MIN_EXPECTED_FREQ ≤ sn
    then e
    else growEnd pf bf nf fuel (e + 1) (sp + pf.getD (e + 1) 0)
      (sb + bf.getD (e + 1) 0) (sn + nf.getD (e + 1) 0)

/-- The outer loop of `createOptimalBins` (Dashboard.jsx:516-564): open a bin
at `currentStart`, grow it, push `[currentStart, currentEnd]`, continue at
`currentEnd + 1` while `currentStart <= maxIndex`. -/
def greedyBins (pf bf nf : List ℚ) (maxIdx : ℕ) : ℕ → ℕ → List (ℕ × ℕ)
  | 0, _ => []
  | fuel + 1, s =>
    if s ≤ maxIdx then
      let e := growEnd pf bf nf (maxIdx - s) s (pf.getD s 0) (bf.getD s 0)
        (nf.getD s 0)
      (s, e) :: greedyBins pf bf nf maxIdx fuel (e + 1)
    else []

/-- The forced uniform re-split loop (Dashboard.jsx:576-579):
`for (let i = 0; i <= maxIndex; i += step)` pushing
`[i, min(i + step - 1, maxIndex)]`. -/
def forcedLoop (step maxIdx : ℕ) : ℕ → ℕ → List (ℕ × ℕ)
  | 0, _ => []
  | fuel + 1, i =>
    if i ≤ maxIdx then
      (i, min (i + step - 1) maxIdx) :: forcedLoop step maxIdx fuel (i + step)
    else []

/-- Model of `for (let i = start; i <= end; i++) sum += l[i] || 0`
(Dashboard.jsx:598-605 and the three analogous loops). -/
def sliceSum (l : List ℚ) (s e : ℕ) : ℚ :=
  ((List.range (e + 1 - s)).map (fun j => l.getD (s + j) 0)).sum

/-- Output of `createBinnedFrequencies`/`createOptimalBins`. -/
structure BinnedOut where
  bins : List (ℕ × ℕ)
  binnedEmpirical : List ℚ
  binnedPoisson : List ℚ
  binnedBinomial : List ℚ
  binnedNegBinomial : List ℚ
deriving Repr, DecidableEq

/-- Model of `createBinnedFrequencies(bins, ...)` (Dashboard.jsx:595-643). -/
def createBinnedFrequencies (bins : List (ℕ × ℕ))
    (emp pf bf nf : List ℚ) : BinnedOut :=
  { bins := bins,
    binnedEmpirical := bins.map (fun b => sliceSum emp b.1 b.2),
    binnedPoisson := bins.map (fun b => sliceSum pf b.1 b.2),
    binnedBinomial := bins.map (fun b => sliceSum bf b.1 b.2),
    binnedNegBinomial := bins.map (fun b => sliceSum nf b.1 b.2) }

/-- Model of `createOptimalBins(empiricalFreqs, poissonFreqs, binomialFreqs,
negBinomialFreqs)` (Dashboard.jsx:505-592): greedy pass, then, if fewer than
`MIN_BINS` bins resulted, a forced uniform re-split with
`step = Math.ceil((maxIndex + 1) / MIN_BINS)`. -/
def createOptimalBins (emp pf bf nf : List ℚ) : BinnedOut :=
  let maxIdx := emp.length - 1
  let bins := greedyBins pf bf nf maxIdx (maxIdx + 1) 0
  if bins.length < MIN_BINS then
    createBinnedFrequencies
      (forcedLoop (ceilDiv (maxIdx + 1) MIN_BINS) maxIdx (maxIdx + 1) 0)
      emp pf bf nf
  else createBinnedFrequencies bins emp pf bf nf

/-- Model of `bins.map(([start, end]) => start === end ? start : start-end)`
(Dashboard.jsx:944). -/
def mkBinLabels (bins : List (ℕ × ℕ)) : List String :=
  bins.map (fun b => if b.1 = b.2 then toString b.1
    else toString b.1 ++ "-" ++ toString b.2)

/-- The empirical histogram (Dashboard.jsx:929-930):
`Array(maxDefects + 1).fill(0)` then `filteredDefects.forEach(d => f[d]++)`,
i.e. entry `k` counts the occurrences of `k` in the sample. -/
def empiricalFrequencies (sample : List ℕ) : List ℕ :=
  (List.range (maxList sample + 1)).map (fun k => sample.count k)

/-- Decidable partition check: the bins are ascending, contiguous,
non-overlapping and cover `[s, m]` exactly (each bin starts where the
previous ended + 1, has a well-ordered range, and the last ends at `m`). -/
def binsChainB : ℕ → List (ℕ × ℕ) → ℕ → Bool
  | s, [], m => s == m + 1
  | s, b :: rest, m => (b.1 == s) && decide (s ≤ b.2) && binsChainB (b.2 + 1) rest m

theorem growEnd_ge (pf bf nf : List ℚ) :
    ∀ (fuel e : ℕ) (sp sb sn : ℚ), e ≤ growEnd pf bf nf fuel e sp sb sn := by
  intro fuel
  induction fuel with
  | zero => intro e sp sb sn; simp [growEnd]
  | succ n ih =>
    intro e sp sb sn
    unfold growEnd
    split
    · exact le_refl e
    · exact le_trans (Nat.le_succ e) (ih (e + 1) _ _ _)

theorem growEnd_le (pf bf nf : List ℚ) :
    ∀ (fuel e : ℕ) (sp sb sn : ℚ), growEnd pf bf nf fuel e sp sb sn ≤ e + fuel := by
  intro fuel
  induction fuel with
  | zero => intro e sp sb sn; simp [growEnd]
  | succ n ih =>
    intro e sp sb sn
    unfold growEnd
    split
    · omega
    · have := ih (e + 1) (sp + pf.getD (e + 1) 0) (sb + bf.getD (e + 1) 0)
        (sn + nf.getD (e + 1) 0)
      omega

theorem greedyBins_chain (pf bf nf : List ℚ) (maxIdx : ℕ) :
    ∀ (fuel s : ℕ), maxIdx + 1 - s ≤ fuel → s ≤ maxIdx + 1 →
      binsChainB s (greedyBins pf bf nf maxIdx fuel s) maxIdx = true := by
  intro fuel
  induction fuel with
  | zero =>
    intro s h1 h2
    have : s = maxIdx + 1 := by omega
    simp [greedyBins, binsChainB, this]
  | succ n ih =>
    intro s h1 h2
    unfold greedyBins
    split
    · rename_i hs
      have hge := growEnd_ge pf bf nf (maxIdx - s) s (pf.getD s 0) (bf.getD s 0)
        (nf.getD s 0)
      have hle := growEnd_le pf bf nf (maxIdx - s) s (pf.getD s 0) (bf.getD s 0)
        (nf.getD s 0)
      set e := growEnd pf bf nf (maxIdx - s) s (pf.getD s 0) (bf.getD s 0)
        (nf.getD s 0) with he
      have heb : e ≤ maxIdx := by omega
      simp only [binsChainB, beq_self_eq_true, Bool.true_and, Bool.and_eq_true,
        decide_eq_true_eq]
      exact ⟨hge, ih (e + 1) (by omega) (by omega)⟩
    · rename_i hs
      have : s = maxIdx + 1 := by omega
      simp [binsChainB, this]

theorem forcedLoop_nil (step maxIdx : ℕ) (fuel i : ℕ) (h : maxIdx < i) :
    forcedLoop step maxIdx fuel i = [] := by
  cases fuel with
  | zero => rfl
  | succ n => unfold forcedLoop; simp [Nat.not_le.2 h]

theorem forcedLoop_chain (step maxIdx : ℕ) (hstep : 0 < step) :
    ∀ (fuel i : ℕ), maxIdx + 1 - i ≤ fuel → i ≤ maxIdx + 1 →
      binsChainB i (forcedLoop step maxIdx fuel i) maxIdx = true := by
  intro fuel
  induction fuel with
  | zero =>
    intro i h1 h2
    have : i = maxIdx + 1 := by omega
    simp [forcedLoop, binsChainB, this]
  | succ n ih =>
    intro i h1 h2
    unfold forcedLoop
    split
    · rename_i hi
      simp only [binsChainB, beq_self_eq_true, Bool.true_and, Bool.and_eq_true,
        decide_eq_true_eq]
      refine ⟨by omega, ?_⟩
      by_cases hcase : i + step ≤ maxIdx + 1
      · have hmin : min (i + step - 1) maxIdx = i + step - 1 := by omega
        rw [hmin]
        have : i + step - 1 + 1 = i + step := by omega
        rw [this]
        exact ih (i + step) (by omega) (by omega)
      · have hmin : min (i + step - 1) maxIdx = maxIdx := by omega
        rw [hmin, forcedLoop_nil step maxIdx n (i + step) (by omega)]
        simp [binsChainB]
    · rename_i hi
      have : i = maxIdx + 1 := by omega
      simp [binsChainB, this]

theorem binsChainB_start_le {s : ℕ} {bins : List (ℕ × ℕ)} {m : ℕ}
    (h : binsChainB s bins m = true) : s ≤ m + 1 := by
  induction bins generalizing s with
  | nil => simp [binsChainB] at h; omega
  | cons b rest ih =>
    simp only [binsChainB, Bool.and_eq_true, beq_iff_eq, decide_eq_true_eq] at h
    have := ih h.2
    omega

theorem sliceSum_split (l : List ℚ) (s b m : ℕ) (h1 : s ≤ b + 1) (h2 : b ≤ m) :
    sliceSum l s m = sliceSum l s b + sliceSum l (b + 1) m := by
  unfold sliceSum
  have hsplit : m + 1 - s = (b + 1 - s) + (m - b) := by omega
  rw [hsplit, List.range_add, List.map_append, List.sum_append]
  congr 1
  rw [List.map_map]
  have h3 : m + 1 - (b + 1) = m - b := by omega
  rw [h3]
  refine congrArg List.sum (List.map_congr_left fun j hj => ?_)
  simp only [Function.comp_apply]
  congr 1
  omega

theorem binsChainB_sum (l : List ℚ) :
    ∀ (bins : List (ℕ × ℕ)) (s m : ℕ), binsChainB s bins m = true →
      ((bins.map (fun b => sliceSum l b.1 b.2)).sum) = sliceSum l s m := by
  intro bins
  induction bins with
  | nil =>
    intro s m h
    simp only [binsChainB, beq_iff_eq] at h
    subst h
    simp [sliceSum]
  | cons b rest ih =>
    intro s m h
    simp only [binsChainB, Bool.and_eq_true, beq_iff_eq, decide_eq_true_eq] at h
    obtain ⟨⟨hb1, hb2⟩, hrest⟩ := h
    have hb2m : b.2 ≤ m := by
      have := binsChainB_start_le hrest
      omega
    rw [List.map_cons, List.sum_cons, ih (b.2 + 1) m hrest, hb1,
      sliceSum_split l s b.2 m (by omega) hb2m]

theorem sum_range_getD (l : List ℚ) :
    ((List.range l.length).map (fun j => l.getD j 0)).sum = l.sum := by
  induction l with
  | nil => simp
  | cons a t ih =>
    rw [List.length_cons, List.range_succ_eq_map, List.map_cons, List.sum_cons,
      List.map_map]
    simp only [List.getD_cons_zero, List.sum_cons]
    congr 1

theorem sliceSum_total (l : List ℚ) (h : l ≠ []) :
    sliceSum l 0 (l.length - 1) = l.sum := by
  unfold sliceSum
  have hlen : l.length - 1 + 1 - 0 = l.length := by
    have := List.length_pos.2 h
    omega
  rw [hlen, ← sum_range_getD l]
  refine congrArg List.sum (List.map_congr_left fun j hj => ?_)
  simp

theorem mem_le_maxList (sample : List ℕ) : ∀ d ∈ sample, d ≤ maxList sample := by
  induction sample with
  | nil => simp
  | cons a t ih =>
    intro d hd
    rcases List.mem_cons.1 hd with h | h
    · subst h; simp [maxList]
    · have := ih d h
      simp only [maxList, List.foldr_cons] at *
      omega

theorem length_empiricalFrequencies (sample : List ℕ) :
    (empiricalFrequencies sample).length = maxList sample + 1 := by
  simp [empiricalFrequencies]

theorem listRangeMapSum {M : Type*} [AddCommMonoid M] (n : ℕ) (f : ℕ → M) :
    ((List.range n).map f).sum = ∑ i in Finset.range n, f i := by
  induction n with
  | zero => simp
  | succ n ih => rw [List.range_succ, List.map_append, List.sum_append,
      Finset.sum_range_succ, ih]; simp

theorem sum_count_range (sample : List ℕ) (n : ℕ) (h : ∀ d ∈ sample, d < n) :
    ∑ i in Finset.range n, sample.count i = sample.length := by
  induction sample with
  | nil => simp
  | cons a t ih =>
    have ha : a ∈ Finset.range n := Finset.mem_range.2 (h a (List.mem_cons_self a t))
    have ht : ∀ d ∈ t, d < n := fun d hd => h d (List.mem_cons_of_mem a hd)
    simp only [List.count_cons, beq_iff_eq]
    rw [Finset.sum_add_distrib, ih ht, Finset.sum_ite_eq (Finset.range n) a
      (fun _ => 1)]
    simp [ha]

theorem sum_empiricalFrequencies (sample : List ℕ) :
    (empiricalFrequencies sample).sum = sample.length := by
  unfold empiricalFrequencies
  rw [listRangeMapSum]
  exact sum_count_range sample (maxList sample + 1)
    (fun d hd => by have := mem_le_maxList sample d hd; omega)

/-! ### Moment estimation (`calculateBasicStatistics`, Dashboard.jsx:123-276) -/

/-- The `SampleStatistics` record plus per-distribution parameters, as returned by
`calculateBasicStatistics` (the `hasFixedParties` flag is constant `true` in
the source and omitted). -/
structure Stats where
  n : ℕ
  mean : ℚ
  variance : ℚ
  stdDev : ℚ
  defectRate : ℚ
  meanCI : ℚ × ℚ
  varianceCI : Option (ℚ × ℚ)
  lambda : ℚ
  binomialP : ℚ
  avgN : ℤ
  negBinomialR : ℚ
  negBinomialP : ℚ
  hasOverdispersion : Bool
deriving Repr, DecidableEq

/-- The Negative-Binomial parameter selection of `calculateBasicStatistics`
(Dashboard.jsx:198-254), including the trailing extra-validation block
(lines 240-254): method of moments `r = μ²/(σ²−μ)`, `p = μ/σ²` only under
the overdispersion test `variance > mean * 1.1` and only when
`r > 0 && 0 < p < 1` (the `isFinite` conjuncts are vacuous over ℚ);
otherwise the neutral default `r = mean > 0 ? mean : 1`, `p = 0.5`.
`nbValidate` is the trailing extra-validation block factored out (it receives
the already-chosen pair and re-checks `0 < p < 1` and `r > 0`). -/
def nbValidate (mean : ℚ) (chosen : ℚ × ℚ) : ℚ × ℚ :=
  (if chosen.1 ≤ 0 then (if 0 < mean then mean else 1) else chosen.1,
   if chosen.2 ≤ 0 ∨ 1 ≤ chosen.2 then 1 / 2 else chosen.2)

def negBinomialParams (mean variance : ℚ) : ℚ × ℚ :=
  nbValidate mean
    (if variance > mean * (11 / 10) then
      if 0 < (mean * mean) / (variance - mean) ∧ 0 < mean / variance
          ∧ mean / variance < 1
      then ((mean * mean) / (variance - mean), mean / variance)
      else (if 0 < mean then mean else 1, 1 / 2)
    else (if 0 < mean then mean else 1, 1 / 2))

/-- Model of `calculateBasicStatistics(defects, totalItems)` (Dashboard.jsx:123-276).
The three thrown input errors become `Except.error`; the confidence-interval
`try/catch` cannot fire over ℚ, and the `varianceCI = [NaN, NaN]` branch is
`none`. -/
def calculateBasicStatistics (J : Jstat) (defects : List ℚ) (totalItems : ℚ) :
    Except String Stats :=
  if defects = [] then
    .error "Пустой массив дефектов или неверный формат"
  else if ¬ (defects.all fun v => decide (0 ≤ v)) then
    .error "Массив дефектов должен содержать только неотрицательные числа"
  else if totalItems < 0 then
    .error "Общее количество элементов должно быть неотрицательным числом"
  else
    let n := defects.length
    let sum := defects.sum
    let mean := sum / (n : ℚ)
    let variance := (defects.map fun v => (v - mean) ^ 2).sum / ((max (n - 1) 1 : ℕ) : ℚ)
    let seMean := J.sqrt (variance / (n : ℚ))
    let chi2Lower := J.chisquareInv (1 / 40) (n - 1)
    let chi2Upper := J.chisquareInv (39 / 40) (n - 1)
    let rp := negBinomialParams mean variance
    .ok
      { n := n, mean := mean, variance := variance, stdDev := J.sqrt variance,
        defectRate := if 0 < totalItems then sum / totalItems else 0,
        meanCI := (mean - (49 / 25) * seMean, mean + (49 / 25) * seMean),
        varianceCI :=
          if 0 < chi2Lower ∧ 0 < chi2Upper then
            some (((n : ℚ) - 1) * variance / chi2Upper,
              ((n : ℚ) - 1) * variance / chi2Lower)
          else none,
        lambda := mean,
        binomialP := if 0 < totalItems then sum / totalItems else 0,
        avgN := jsRound (totalItems / (n : ℚ)),
        negBinomialR := rp.1, negBinomialP := rp.2,
        hasOverdispersion := decide (variance > mean * (11 / 10)) }

/-! ### Theoretical frequencies (`calculateTheoreticalFrequencies`,
Dashboard.jsx:397-502) -/

/-- One Negative-Binomial expected-frequency entry (Dashboard.jsx:465-492):
parameter guard, PMF evaluated at the jStat complement `1 - p`, the
`isNaN/|negative|isFinite` clip (over ℚ only `prob < 0` can fire), and the
extra `freq > filteredDefectsLength * 2 ? 0 : freq` clamp. -/
def negBinFreqEntry (J : Jstat) (k : ℕ) (r p len : ℚ) : ℚ :=
  if p ≤ 0 ∨ 1 ≤ p ∨ r ≤ 0 then 0
  else
    let prob := J.negbinPdf k r (1 - p)
    let freq := if prob < 0 then 0 else prob * len
    if freq > len * 2 then 0 else freq

/-- Model of `calculateTheoreticalFrequencies(filteredDefects, stats)`
(Dashboard.jsx:397-502): the Poisson, Binomial and Negative-Binomial
expected-frequency vectors over the support `[0, maxDefects]`. -/
def calculateTheoreticalFrequencies (J : Jstat) (filteredDefects : List ℕ)
    (st : Stats) : List ℚ × List ℚ × List ℚ :=
  let len : ℚ := (filteredDefects.length : ℕ)
  let maxD := maxList filteredDefects
  let poisson := (List.range (maxD + 1)).map fun k =>
    if st.lambda ≤ 0 then 0
    else
      let prob := J.poissonPdf k st.lambda
      if prob < 0 then 0 else prob * len
  let binomial := (List.range (maxD + 1)).map fun (k : ℕ) =>
    if st.avgN < (k : ℤ) ∨ st.avgN ≤ 0 ∨ st.binomialP ≤ 0 ∨ 1 ≤ st.binomialP
    then 0
    else
      let prob := J.binomialPdf k st.avgN st.binomialP
      if prob < 0 then 0 else prob * len
  let negbin := (List.range (maxD + 1)).map fun k =>
    negBinFreqEntry J k st.negBinomialR st.negBinomialP len
  (poisson, binomial, negbin)

/-! ### Outlier filtering (`calculateOutlierBound`/`filterOutliers`,
Dashboard.jsx:279-394; the pipeline invokes the `Binomial` branch) -/

/-- The cumulative-probability loop of the `Binomial` branch
(Dashboard.jsx:315-324): `for (k = 0; k <= n && cum < 1 - 0.001; k++)
{ cum += pdf(k); upperBound = k }`, embedded with fuel `n + 1` (the exact
number of possible successes of `k <= n`). -/
def outlierLoopBinomial (J : Jstat) (n : ℤ) (p : ℚ) :
    ℕ → ℕ → ℚ → ℕ → ℕ
  | 0, _, _, upper => upper
  | fuel + 1, k, cum, upper =>
    if (k : ℤ) ≤ n ∧ cum < 1 - OUTLIER_THRESHOLD_PROBABILITY then
      outlierLoopBinomial J n p fuel (k + 1) (cum + J.binomialPdf k n p) k
    else upper

/-- Model of `calculateOutlierBound('Binomial', {n, p})` (Dashboard.jsx:308-325);
`none` models the `Infinity` returned for invalid parameters (the JS
truthiness tests `!n || !p` coincide with the sign tests over ℤ/ℚ). -/
def calculateOutlierBoundBinomial (J : Jstat) (n : ℤ) (p : ℚ) : Option ℚ :=
  if n ≤ 0 ∨ p ≤ 0 ∨ 1 ≤ p then none
  else some ((outlierLoopBinomial J n p (n.toNat + 1) 0 0 0 : ℕ) : ℚ)

/-- Comparison `d <= upperBound` with `upperBound` possibly `Infinity`. -/
def leBound (bound : Option ℚ) (d : ℚ) : Bool :=
  match bound with
  | none => true
  | some b => decide (d ≤ b)

/-- Model of `filterOutliers(defects, 'Binomial', params)` (Dashboard.jsx:363-394):
keep the defect counts `<=` the computed upper bound. -/
def filterOutliers (J : Jstat) (defects : List ℕ) (n : ℤ) (p : ℚ) : List ℕ :=
  defects.filter fun d => leBound (calculateOutlierBoundBinomial J n p) (d : ℚ)

/-! ### The main analysis effect (Dashboard.jsx:878-1045) -/

/-- Thrown by `validateData` on an empty record set (Dashboard.jsx:68). -/
def msgNoData : String :=
  "Ошибка: данные отсутствуют. Пожалуйста, загрузите данные."

/-- Thrown by `validateData` on invalid rows (Dashboard.jsx:116). -/
def msgInvalidData : String :=
  "Ошибка: обнаружены некорректные данные (отрицательные значения, NaN, defects > total или неверный тип). Проверьте данные."

/-- Thrown when outlier filtering empties the sample (Dashboard.jsx:919). -/
def msgEmptyAfterFilter : String :=
  "Ошибка: после фильтрации выбросов данные отсутствуют."

/-- One row of `validateData` (Dashboard.jsx:74-106): with natural-number
fields, the type/negativity/NaN checks hold vacuously and only
`row.defects > row.total` can reject. -/
def rowValid (r : Record) : Bool := decide (r.defects ≤ r.total)

/-- The `finalAnalysis` object assembled by the effect
(Dashboard.jsx:960-977); fields not derived from the pipeline (spread of the
previous state) are omitted. -/
structure AnalysisOut where
  distribution : String
  empiricalFrequencies : List ℚ
  theoreticalPoisson : List ℚ
  theoreticalBinomial : List ℚ
  theoreticalNegBinomial : List ℚ
  chiSquarePoisson : ℚ
  chiSquareBinomial : ℚ
  chiSquareNegBinomial : ℚ
  criticalValue : ℚ
  pValuePoisson : ℚ
  pValueBinomial : ℚ
  pValueNegBinomial : ℚ
  degreesOfFreedom : ℕ
  hypothesisAccepted : Bool
  binLabels : List String
  meanCI : ℚ × ℚ
  varianceCI : Option (ℚ × ℚ)
deriving Repr, DecidableEq

/-- Model of `results.find(r => r.name === name)?.chi2 || 0` (Dashboard.jsx:849-851). -/
def findChi2 (results : List DistEntry) (name : String) : ℚ :=
  ((results.find? fun r => r.name == name).map fun r => r.chi2).getD 0

/-- Model of `results.find(r => r.name === name)?.pValue || 0` (Dashboard.jsx:855-857). -/
def findPValue (results : List DistEntry) (name : String) : ℚ :=
  ((results.find? fun r => r.name == name).map fun r => r.pValue).getD 0

/-- The `try` block of the main analysis effect (Dashboard.jsx:887-1039,
up to `setAnalysis(finalAnalysis)`): validation, defect extraction, basic
statistics, outlier filtering (the effect passes `'Binomial'` with
`n = stats.avgN`, `p = stats.binomialP`), empirical histogram, theoretical
frequencies, binning, bin labels, and the per-distribution chi-square
analysis.  A thrown error is `Except.error` (the catch handler only sets the
error banner). -/
def runAnalysisBody (J : Jstat) (data : List Record) (includeOutliers : Bool)
    (significanceLevel : ℚ) : Except String AnalysisOut :=
  if data = [] then .error msgNoData
  else if ¬ (data.all rowValid) then .error msgInvalidData
  else
    let defects : List ℕ := data.map fun row => row.defects
    let totalItems : ℚ := (((data.map fun row => row.total).sum : ℕ) : ℚ)
    match calculateBasicStatistics J (defects.map (fun (d : ℕ) => (d : ℚ))) totalItems with
    | .error e => .error e
    | .ok st =>
      let filteredDefects :=
        if includeOutliers then defects
        else filterOutliers J defects st.avgN st.binomialP
      if filteredDefects = [] then .error msgEmptyAfterFilter
      else
        let empirical := empiricalFrequencies filteredDefects
        let freqs := calculateTheoreticalFrequencies J filteredDefects st
        let out := createOptimalBins (empirical.map (fun (k : ℕ) => (k : ℚ)))
          freqs.1 freqs.2.1 freqs.2.2
        let labels := mkBinLabels out.bins
        let ar := analyzeDistributions J.chisquareCdf J.chisquareInv
          significanceLevel out.binnedEmpirical out.binnedPoisson
          out.binnedBinomial out.binnedNegBinomial
        .ok
          { distribution := ((ar.best.map fun b => b.name).getD ""),
            empiricalFrequencies := out.binnedEmpirical,
            theoreticalPoisson := out.binnedPoisson,
            theoreticalBinomial := out.binnedBinomial,
            theoreticalNegBinomial := out.binnedNegBinomial,
            chiSquarePoisson := findChi2 ar.results "Poisson",
            chiSquareBinomial := findChi2 ar.results "Binomial",
            chiSquareNegBinomial := findChi2 ar.results "NegativeBinomial",
            criticalValue := ((ar.best.map fun b => b.critical).getD 0),
            pValuePoisson := findPValue ar.results "Poisson",
            pValueBinomial := findPValue ar.results "Binomial",
            pValueNegBinomial := findPValue ar.results "NegativeBinomial",
            degreesOfFreedom := ((ar.best.map fun b => b.df).getD 0),
            hypothesisAccepted := !ar.accepted.isEmpty,
            binLabels := labels,
            meanCI := st.meanCI,
            varianceCI := st.varianceCI }

/-- The effect as seen from the `analysis` state: `data.length === 0` returns
early, a successful run replaces the state with `finalAnalysis`, and a thrown
error reaches the `catch` which only sets the error banner — the previous
`analysis` is preserved (Dashboard.jsx:878-879, 979, 1041-1044). -/
def mainEffect (J : Jstat) (prev : AnalysisOut) (data : List Record)
    (includeOutliers : Bool) (significanceLevel : ℚ) : AnalysisOut :=
  if data = [] then prev
  else
    match runAnalysisBody J data includeOutliers significanceLevel with
    | .ok a => a
    | .error _ => prev

/-! ### Claim C1 -/

/-- C1, counterexample: the claim says the chi-square statistic always equals
the sum over the bins with expected ≥ 5 and that `validBins` counts exactly
those bins.  On `observed = [10]`, `expected = [10]`, `numParams = 1`
(Poisson) there is exactly one bin with expected ≥ 5, and the claimed sum is
0; but the evaluator's insufficient-valid-bins rule
(`validBins < numParams + 2`, Dashboard.jsx:703-711) fires and emits
`chiSquare = Infinity` with `validBins = 0`. -/
theorem C1_counterexample :
    (computeChiSquare [(10 : ℚ)] [(10 : ℚ)] 1).validBins = 0
      ∧ specValidBins [(10 : ℚ)] = 1
      ∧ (computeChiSquare [(10 : ℚ)] [(10 : ℚ)] 1).chi2
          ≠ some (specChi2Sum [(10 : ℚ)] [(10 : ℚ)]) := by
  refine ⟨?_, ?_, ?_⟩
  · norm_num [computeChiSquare, chi2Fold, MIN_EXPECTED_FREQ]
  · norm_num [specValidBins, MIN_EXPECTED_FREQ, List.filter]
  · norm_num [computeChiSquare, chi2Fold, MIN_EXPECTED_FREQ]
    simp

/-- C1, amended: provided the aligned vectors contain at least
`numParams + 2` bins with expected ≥ 5 (so the insufficient-valid-bins rule
does not fire) and the observed entries are non-negative (as binned
frequencies always are), the statistic is exactly
`Σ (observed−expected)²/expected` over the bins with expected ≥ 5,
`validBins` counts exactly those bins, and no other condition — in
particular not the observed value — excludes a bin. -/
theorem C1_amended (observed expected : List ℚ) (numParams : ℕ)
    (hl : observed.length = expected.length)
    (hobs : ∀ o ∈ observed, (0 : ℚ) ≤ o)
    (hcnt : numParams + 2 ≤ specValidBins expected) :
    computeChiSquare observed expected numParams
      = ⟨some (specChi2Sum observed expected), specValidBins expected,
          max (specValidBins expected - 1 - numParams) 1⟩ := by
  have hcontrib := contributingPairs_of_nonneg observed expected hobs
  have hcount : (contributingPairs observed expected).length
      = specValidBins expected := by
    rw [hcontrib]; exact length_filter_zip_snd observed expected hl
  have hsum : ((contributingPairs observed expected).map
      (fun oe => (oe.1 - oe.2) ^ 2 / oe.2)).sum = specChi2Sum observed expected := by
    rw [hcontrib]; rfl
  have hnn := chi2Fold_fst_nonneg observed expected
  unfold computeChiSquare
  rw [if_neg (by omega)]
  rw [chi2Fold_spec] at hnn ⊢
  simp only [hcount, hsum] at *
  rw [if_neg (by omega), if_pos hnn]

/-- C1, witness for the amended theorem at `observed = expected = [5,5,5]`,
`numParams = 1`. -/
theorem C1_witness :
    computeChiSquare [(5 : ℚ), 5, 5] [(5 : ℚ), 5, 5] 1
      = ⟨some (specChi2Sum [(5 : ℚ), 5, 5] [(5 : ℚ), 5, 5]),
          specValidBins [(5 : ℚ), 5, 5],
          max (specValidBins [(5 : ℚ), 5, 5] - 1 - 1) 1⟩ :=
  C1_amended [(5 : ℚ), 5, 5] [(5 : ℚ), 5, 5] 1 rfl
    (by intro o ho; simp only [List.mem_cons, List.not_mem_nil, or_false] at ho
        rcases ho with h | h | h <;> norm_num [h])
    (by norm_num [specValidBins, MIN_EXPECTED_FREQ, List.filter])

/-! ### Claim C2 -/

theorem mkEntry_name (cdf inv : ℚ → ℕ → ℚ) (α : ℚ) (name : String)
    (numParams : ℕ) (obs exp : List ℚ) (e : DistEntry)
    (h : mkEntry cdf inv α name numParams obs exp = some e) : e.name = name := by
  revert h
  unfold mkEntry
  cases hchi : (computeChiSquare obs exp numParams).chi2 with
  | none => simp [hchi]
  | some c =>
    by_cases hdf : 0 < (computeChiSquare obs exp numParams).df
    · simp only [hchi, hdf, if_true, Option.some.injEq]
      intro h
      rw [← h]
    · simp [hchi, hdf]

theorem mkEntry_isSome_iff (cdf inv : ℚ → ℕ → ℚ) (α : ℚ) (name : String)
    (numParams : ℕ) (obs exp : List ℚ) :
    (mkEntry cdf inv α name numParams obs exp).isSome = true
      ↔ (obs.length = exp.length
          ∧ numParams + 2 ≤ (contributingPairs obs exp).length) := by
  unfold mkEntry
  by_cases hl : obs.length = exp.length
  · by_cases hc : (contributingPairs obs exp).length < numParams + 2
    · have hr : computeChiSquare obs exp numParams = ⟨none, 0, 0⟩ := by
        unfold computeChiSquare
        rw [if_neg (by omega), chi2Fold_spec]
        rw [if_pos (by simpa using hc)]
      rw [hr]
      simp
      omega
    · have hnn := chi2Fold_fst_nonneg obs exp
      have hr : computeChiSquare obs exp numParams
          = ⟨some (((contributingPairs obs exp).map
                (fun oe => (oe.1 - oe.2) ^ 2 / oe.2)).sum),
              (contributingPairs obs exp).length,
              max ((contributingPairs obs exp).length - 1 - numParams) 1⟩ := by
        unfold computeChiSquare
        rw [if_neg (by omega)]
        rw [chi2Fold_spec] at hnn ⊢
        rw [if_neg (by simpa using hc), if_pos hnn]
      rw [hr]
      simp
      exact ⟨hl, by omega⟩
  · have hr : computeChiSquare obs exp numParams = ⟨none, 0, 0⟩ := by
      unfold computeChiSquare
      rw [if_pos (by omega)]
    rw [hr]
    simp
    intro h
    exact absurd h hl

theorem mem_name_filterMap₃ (a b c : Option DistEntry) (t : String) :
    (t ∈ (([a, b, c].filterMap id).map fun r => r.name))
      ↔ ((∃ e, a = some e ∧ e.name = t) ∨ (∃ e, b = some e ∧ e.name = t)
          ∨ (∃ e, c = some e ∧ e.name = t)) := by
  cases a <;> cases b <;> cases c <;> simp [eq_comm]

theorem analyzeDistributions_results (cdf inv : ℚ → ℕ → ℚ) (α : ℚ)
    (obs pf bf nf : List ℚ) :
    (analyzeDistributions cdf inv α obs pf bf nf).results
      = [mkEntry cdf inv α "Poisson" 1 obs pf,
         mkEntry cdf inv α "Binomial" 2 obs bf,
         mkEntry cdf inv α "NegativeBinomial" 2 obs nf].filterMap id := rfl

/-- C2: (i) whenever the accumulation loop finds fewer than `numParams + 2`
valid bins, `computeChiSquare` emits `chiSquare = Infinity` (`none`),
`validBins = 0` and `degreesOfFreedom = 0`; (ii) a distribution appears in
the `results` of `analyzeDistributions` exactly when its vectors are aligned
and it has at least `numParams + 2` valid bins — so the rejected distribution
is dropped (never accepted) while each remaining distribution with enough
valid bins still gets a result; (iii) `accepted` only contains members of
`results`, hence the dropped distribution is automatically rejected. -/
theorem C2_insufficientBins_isolated (cdf inv : ℚ → ℕ → ℚ) (α : ℚ)
    (obs pf bf nf expected : List ℚ) (numParams : ℕ)
    (h : (contributingPairs obs expected).length < numParams + 2) :
    computeChiSquare obs expected numParams = ⟨none, 0, 0⟩
    ∧ (("Poisson" ∈ ((analyzeDistributions cdf inv α obs pf bf nf).results.map
          fun r => r.name))
        ↔ obs.length = pf.length ∧ 1 + 2 ≤ (contributingPairs obs pf).length)
    ∧ (("Binomial" ∈ ((analyzeDistributions cdf inv α obs pf bf nf).results.map
          fun r => r.name))
        ↔ obs.length = bf.length ∧ 2 + 2 ≤ (contributingPairs obs bf).length)
    ∧ (("NegativeBinomial" ∈
          ((analyzeDistributions cdf inv α obs pf bf nf).results.map
            fun r => r.name))
        ↔ obs.length = nf.length ∧ 2 + 2 ≤ (contributingPairs obs nf).length)
    ∧ (∀ r ∈ (analyzeDistributions cdf inv α obs pf bf nf).accepted,
        r ∈ (analyzeDistributions cdf inv α obs pf bf nf).results) := by
  refine ⟨?_, ?_, ?_, ?_, ?_⟩
  · by_cases hl : obs.length = expected.length
    · unfold computeChiSquare
      rw [if_neg (by omega), chi2Fold_spec, if_pos (by simpa using h)]
    · unfold computeChiSquare
      rw [if_pos (by omega)]
  · rw [← mkEntry_isSome_iff cdf inv α "Poisson" 1 obs pf,
      analyzeDistributions_results, mem_name_filterMap₃]
    constructor
    · rintro (⟨e, he, hn⟩ | ⟨e, he, hn⟩ | ⟨e, he, hn⟩)
      · simp [he]
      · have := mkEntry_name cdf inv α "Binomial" 2 obs bf e he
        rw [this] at hn
        exact absurd hn (by decide)
      · have := mkEntry_name cdf inv α "NegativeBinomial" 2 obs nf e he
        rw [this] at hn
        exact absurd hn (by decide)
    · intro hs
      obtain ⟨e, he⟩ := Option.isSome_iff_exists.1 hs
      exact Or.inl ⟨e, he, mkEntry_name cdf inv α "Poisson" 1 obs pf e he⟩
  · rw [← mkEntry_isSome_iff cdf inv α "Binomial" 2 obs bf,
      analyzeDistributions_results, mem_name_filterMap₃]
    constructor
    · rintro (⟨e, he, hn⟩ | ⟨e, he, hn⟩ | ⟨e, he, hn⟩)
      · have := mkEntry_name cdf inv α "Poisson" 1 obs pf e he
        rw [this] at hn
        exact absurd hn (by decide)
      · simp [he]
      · have := mkEntry_name cdf inv α "NegativeBinomial" 2 obs nf e he
        rw [this] at hn
        exact absurd hn (by decide)
    · intro hs
      obtain ⟨e, he⟩ := Option.isSome_iff_exists.1 hs
      exact Or.inr (Or.inl ⟨e, he, mkEntry_name cdf inv α "Binomial" 2 obs bf e he⟩)
  · rw [← mkEntry_isSome_iff cdf inv α "NegativeBinomial" 2 obs nf,
      analyzeDistributions_results, mem_name_filterMap₃]
    constructor
    · rintro (⟨e, he, hn⟩ | ⟨e, he, hn⟩ | ⟨e, he, hn⟩)
      · have := mkEntry_name cdf inv α "Poisson" 1 obs pf e he
        rw [this] at hn
        exact absurd hn (by decide)
      · have := mkEntry_name cdf inv α "Binomial" 2 obs bf e he
        rw [this] at hn
        exact absurd hn (by decide)
      · simp [he]
    · intro hs
      obtain ⟨e, he⟩ := Option.isSome_iff_exists.1 hs
      exact Or.inr (Or.inr
        ⟨e, he, mkEntry_name cdf inv α "NegativeBinomial" 2 obs nf e he⟩)
  · intro r hr
    exact (List.mem_filter.1 hr).1

/-- C2, witness: with `observed = [5,5,5,5]`, Poisson expectations all 1
(no valid bin, `0 < 1 + 2`) and Binomial/Negative-Binomial expectations all 5,
Poisson is dropped from `results` while Binomial still gets a result. -/
theorem C2_witness :
    computeChiSquare [(5 : ℚ), 5, 5, 5] [(1 : ℚ), 1, 1, 1] 1 = ⟨none, 0, 0⟩
    ∧ ¬("Poisson" ∈ ((analyzeDistributions (fun _ _ => 0) (fun _ _ => 0) (1 / 20)
          [(5 : ℚ), 5, 5, 5] [(1 : ℚ), 1, 1, 1] [(5 : ℚ), 5, 5, 5]
          [(5 : ℚ), 5, 5, 5]).results.map fun r => r.name))
    ∧ ("Binomial" ∈ ((analyzeDistributions (fun _ _ => 0) (fun _ _ => 0) (1 / 20)
          [(5 : ℚ), 5, 5, 5] [(1 : ℚ), 1, 1, 1] [(5 : ℚ), 5, 5, 5]
          [(5 : ℚ), 5, 5, 5]).results.map fun r => r.name)) := by
  have h := C2_insufficientBins_isolated (fun _ _ => 0) (fun _ _ => 0) (1 / 20)
    [(5 : ℚ), 5, 5, 5] [(1 : ℚ), 1, 1, 1] [(5 : ℚ), 5, 5, 5] [(5 : ℚ), 5, 5, 5]
    [(1 : ℚ), 1, 1, 1] 1
    (by norm_num [contributingPairs, MIN_EXPECTED_FREQ, List.filter])
  refine ⟨h.1, ?_, ?_⟩
  · rw [h.2.1]
    norm_num [contributingPairs, MIN_EXPECTED_FREQ, List.filter]
  · rw [h.2.2.1]
    norm_num [contributingPairs, MIN_EXPECTED_FREQ, List.filter]

/-! ### Claim C3 -/

theorem nbValidate_of_valid (mean : ℚ) (c : ℚ × ℚ) (h1 : 0 < c.1)
    (h2 : 0 < c.2) (h3 : c.2 < 1) : nbValidate mean c = c := by
  unfold nbValidate
  rw [if_neg (not_le.2 h1), if_neg (by push_neg; exact ⟨h2, h3⟩)]

theorem nbValidate_default (mean : ℚ) :
    nbValidate mean (if 0 < mean then mean else 1, 1 / 2)
      = (if 0 < mean then mean else 1, 1 / 2) := by
  unfold nbValidate
  by_cases hm : 0 < mean
  · rw [if_pos hm]
    norm_num [hm]
  · rw [if_neg hm]
    norm_num

/-- C3: for every non-empty sample of non-negative defect counts (so the
estimator's own validation passes), `calculateBasicStatistics` succeeds — no
NaN parameters are propagated — and its Negative-Binomial parameters are
`negBinomialParams` of the sample mean and variance; and `negBinomialParams`
returns the method-of-moments values `r = μ²/(σ²−μ)`, `p = μ/σ²` exactly when
`variance > 1.1·mean` and those values satisfy `r > 0`, `0 < p < 1`, and in
every other case the neutral default `(mean if mean > 0 else 1, 1/2)`. -/
theorem C3_negBinomial_estimator (J : Jstat) (defects : List ℚ)
    (totalItems : ℚ) (h1 : defects ≠ []) (h2 : ∀ v ∈ defects, 0 ≤ v)
    (h3 : 0 ≤ totalItems) :
    (∃ st, calculateBasicStatistics J defects totalItems = Except.ok st
      ∧ st.mean = defects.sum / (defects.length : ℚ)
      ∧ st.variance = (defects.map fun v => (v - st.mean) ^ 2).sum
          / ((max (defects.length - 1) 1 : ℕ) : ℚ)
      ∧ (st.negBinomialR, st.negBinomialP) = negBinomialParams st.mean st.variance)
    ∧ ∀ m v : ℚ,
        ((v > m * (11 / 10) ∧ 0 < (m * m) / (v - m) ∧ 0 < m / v ∧ m / v < 1 →
          negBinomialParams m v = ((m * m) / (v - m), m / v))
        ∧ (¬(v > m * (11 / 10) ∧ 0 < (m * m) / (v - m) ∧ 0 < m / v ∧ m / v < 1) →
          negBinomialParams m v = (if 0 < m then m else 1, 1 / 2))) := by
  constructor
  · have hall : (defects.all fun v => decide (0 ≤ v)) = true := by
      rw [List.all_eq_true]
      intro v hv
      simpa using h2 v hv
    unfold calculateBasicStatistics
    rw [if_neg h1, if_neg (by simp [hall]), if_neg (not_lt.2 h3)]
    exact ⟨_, rfl, rfl, rfl, rfl⟩
  · intro m v
    constructor
    · rintro ⟨hod, hr, hp0, hp1⟩
      unfold negBinomialParams
      rw [if_pos hod, if_pos ⟨hr, hp0, hp1⟩]
      exact nbValidate_of_valid m _ hr hp0 hp1
    · intro hneg
      unfold negBinomialParams
      by_cases hod : v > m * (11 / 10)
      · have hinvalid : ¬(0 < m * m / (v - m) ∧ 0 < m / v ∧ m / v < 1) := by
          intro hc
          exact hneg ⟨hod, hc⟩
        rw [if_pos hod, if_neg hinvalid]
        exact nbValidate_default m
      · rw [if_neg hod]
        exact nbValidate_default m

/-- C3, witness at the sample `[0, 0, 3, 3]` (mean `3/2`, variance `3`,
overdispersed with valid method-of-moments values `r = 3/2`, `p = 1/2`). -/
theorem C3_witness :
    (∃ st, calculateBasicStatistics
        ⟨fun _ _ => 0, fun _ _ => 1, fun _ _ => 0, fun _ _ _ => 0,
          fun _ _ _ => 0, fun _ => 0⟩ [(0 : ℚ), 0, 3, 3] 6 = Except.ok st
      ∧ (st.negBinomialR, st.negBinomialP) = negBinomialParams st.mean st.variance)
    ∧ negBinomialParams (3 / 2) 3 = (3 / 2, 1 / 2) := by
  have h := C3_negBinomial_estimator
    ⟨fun _ _ => 0, fun _ _ => 1, fun _ _ => 0, fun _ _ _ => 0,
      fun _ _ _ => 0, fun _ => 0⟩ [(0 : ℚ), 0, 3, 3] 6 (by simp)
    (by intro x hx
        simp only [List.mem_cons, List.not_mem_nil, or_false] at hx
        rcases hx with h | h | h | h <;> norm_num [h])
    (by norm_num)
  constructor
  · obtain ⟨st, hok, _, _, hpair⟩ := h.1
    exact ⟨st, hok, hpair⟩
  · rw [(h.2 (3 / 2) 3).1 (by norm_num)]
    norm_num

/-! ### Claim C4 -/

theorem createOptimalBins_eq (emp pf bf nf : List ℚ) :
    createOptimalBins emp pf bf nf =
      if (greedyBins pf bf nf (emp.length - 1) (emp.length - 1 + 1) 0).length
          < MIN_BINS then
        createBinnedFrequencies
          (forcedLoop (ceilDiv (emp.length - 1 + 1) MIN_BINS) (emp.length - 1)
            (emp.length - 1 + 1) 0) emp pf bf nf
      else
        createBinnedFrequencies
          (greedyBins pf bf nf (emp.length - 1) (emp.length - 1 + 1) 0)
          emp pf bf nf := rfl

theorem createOptimalBins_chain (emp pf bf nf : List ℚ) :
    binsChainB 0 (createOptimalBins emp pf bf nf).bins (emp.length - 1) = true := by
  rw [createOptimalBins_eq]
  by_cases hg : (greedyBins pf bf nf (emp.length - 1) (emp.length - 1 + 1) 0).length
      < MIN_BINS
  · rw [if_pos hg]
    apply forcedLoop_chain
    · exact Nat.div_pos (by omega) (by norm_num [MIN_BINS])
    · omega
    · omega
  · rw [if_neg hg]
    exact greedyBins_chain pf bf nf (emp.length - 1) (emp.length - 1 + 1) 0
      (by omega) (by omega)

theorem createOptimalBins_binnedEmpirical (emp pf bf nf : List ℚ) :
    (createOptimalBins emp pf bf nf).binnedEmpirical
      = (createOptimalBins emp pf bf nf).bins.map fun b => sliceSum emp b.1 b.2 := by
  rw [createOptimalBins_eq]
  by_cases hg : (greedyBins pf bf nf (emp.length - 1) (emp.length - 1 + 1) 0).length
      < MIN_BINS
  · rw [if_pos hg]; rfl
  · rw [if_neg hg]; rfl

/-- C4: for every non-empty post-filter sample and any theoretical frequency
vectors, the bins produced by `createOptimalBins` on the sample's empirical
histogram form an ascending, contiguous, non-overlapping cover of
`[0, max(defects)]`; the binned observed counts sum exactly to the
post-filter sample size; and there are exactly as many bin labels as
observed bins. -/
theorem C4_bin_partition_conservation (sample : List ℕ) (_hs : sample ≠ [])
    (pf bf nf : List ℚ) :
    binsChainB 0
        (createOptimalBins ((empiricalFrequencies sample).map (fun (k : ℕ) => (k : ℚ)))
          pf bf nf).bins (maxList sample) = true
    ∧ (createOptimalBins ((empiricalFrequencies sample).map (fun (k : ℕ) => (k : ℚ)))
        pf bf nf).binnedEmpirical.sum = (sample.length : ℚ)
    ∧ (mkBinLabels
        (createOptimalBins ((empiricalFrequencies sample).map (fun (k : ℕ) => (k : ℚ)))
          pf bf nf).bins).length
      = (createOptimalBins ((empiricalFrequencies sample).map (fun (k : ℕ) => (k : ℚ)))
          pf bf nf).binnedEmpirical.length := by
  have hlen : ((empiricalFrequencies sample).map (fun (k : ℕ) => (k : ℚ))).length
      = maxList sample + 1 := by
    rw [List.length_map, length_empiricalFrequencies]
  have hmax : ((empiricalFrequencies sample).map (fun (k : ℕ) => (k : ℚ))).length - 1
      = maxList sample := by omega
  refine ⟨?_, ?_, ?_⟩
  · have := createOptimalBins_chain
      ((empiricalFrequencies sample).map (fun (k : ℕ) => (k : ℚ))) pf bf nf
    rwa [hmax] at this
  · have hne : ((empiricalFrequencies sample).map (fun (k : ℕ) => (k : ℚ))) ≠ [] :=
      List.length_pos.mp (by omega)
    have hcast : ((empiricalFrequencies sample).map (fun (k : ℕ) => (k : ℚ))).sum
        = ((empiricalFrequencies sample).sum : ℚ) := by
      induction empiricalFrequencies sample with
      | nil => simp
      | cons a t ih =>
        rw [List.map_cons, List.sum_cons, List.sum_cons, Nat.cast_add, ih]
    rw [createOptimalBins_binnedEmpirical,
      binsChainB_sum ((empiricalFrequencies sample).map (fun (k : ℕ) => (k : ℚ)))
        (createOptimalBins ((empiricalFrequencies sample).map (fun (k : ℕ) => (k : ℚ)))
          pf bf nf).bins 0
        (((empiricalFrequencies sample).map (fun (k : ℕ) => (k : ℚ))).length - 1)
        (createOptimalBins_chain _ pf bf nf),
      sliceSum_total _ hne, hcast, sum_empiricalFrequencies]
  · rw [createOptimalBins_binnedEmpirical]
    simp [mkBinLabels]

/-- C4, witness at the sample `[0, 1, 1]` with zero theoretical vectors
(forcing the greedy pass to one bin and the uniform re-split to fire). -/
theorem C4_witness :
    binsChainB 0
        (createOptimalBins
          ((empiricalFrequencies [0, 1, 1]).map (fun (k : ℕ) => (k : ℚ)))
          [0, 0] [0, 0] [0, 0]).bins (maxList [0, 1, 1]) = true
    ∧ (createOptimalBins
        ((empiricalFrequencies [0, 1, 1]).map (fun (k : ℕ) => (k : ℚ)))
        [0, 0] [0, 0] [0, 0]).binnedEmpirical.sum
      = (([0, 1, 1] : List ℕ).length : ℚ)
    ∧ (mkBinLabels
        (createOptimalBins
          ((empiricalFrequencies [0, 1, 1]).map (fun (k : ℕ) => (k : ℚ)))
          [0, 0] [0, 0] [0, 0]).bins).length
      = (createOptimalBins
          ((empiricalFrequencies [0, 1, 1]).map (fun (k : ℕ) => (k : ℚ)))
          [0, 0] [0, 0] [0, 0]).binnedEmpirical.length :=
  C4_bin_partition_conservation [0, 1, 1] (by simp) [0, 0] [0, 0] [0, 0]

/-! ### Claim C5 -/

theorem forcedLoop_length (step maxIdx : ℕ) (hstep : 0 < step) :
    ∀ fuel i, maxIdx + 1 - i ≤ fuel →
      (forcedLoop step maxIdx fuel i).length = ceilDiv (maxIdx + 1 - i) step := by
  intro fuel
  induction fuel with
  | zero =>
    intro i h
    have h0 : maxIdx + 1 - i = 0 := by omega
    rw [h0]
    unfold forcedLoop ceilDiv
    rw [Nat.div_eq_of_lt (by omega)]
    rfl
  | succ n ih =>
    intro i h
    unfold forcedLoop
    split
    · rename_i hi
      simp only [List.length_cons]
      rw [ih (i + step) (by omega)]
      unfold ceilDiv
      set m := maxIdx + 1 - i with hm
      have hm1 : 1 ≤ m := by omega
      by_cases hms : m ≤ step
      · have h0 : maxIdx + 1 - (i + step) = 0 := by omega
        rw [h0, Nat.div_eq_of_lt (by omega)]
        have h2 : m + step - 1 = (m - 1) + step := by omega
        rw [h2, Nat.add_div_right _ hstep, Nat.div_eq_of_lt (by omega)]
      · have hsub : maxIdx + 1 - (i + step) = m - step := by omega
        rw [hsub]
        have h1 : m - step + step - 1 = (m - 1 - step) + step := by omega
        have h2 : m + step - 1 = (m - 1) + step := by omega
        rw [h1, h2, Nat.add_div_right _ hstep, Nat.add_div_right _ hstep]
        have h3 : m - 1 = (m - 1 - step) + step := by omega
        conv_rhs => rw [h3, Nat.add_div_right _ hstep]
    · rename_i hi
      have h0 : maxIdx + 1 - i = 0 := by omega
      rw [h0]
      unfold ceilDiv
      rw [Nat.div_eq_of_lt (by omega)]
      rfl

/-- C5, amended: when the greedy pass yields fewer than `MIN_BINS = 3` bins,
the binner does perform the forced uniform re-split with width
`ceil(m / 3)` (`m` = support size), but the result has at least 3 bins only
when `m = 3` or `m ≥ 5`; for `m ∈ {2, 4}` it has exactly 2 bins — in
particular a two-distinct-value sample on support `{0, 1}` ends with 2 bins,
not 3. -/
theorem C5_forced_resplit (emp pf bf nf : List ℚ)
    (hg : (greedyBins pf bf nf (emp.length - 1) (emp.length - 1 + 1) 0).length
        < MIN_BINS) :
    (createOptimalBins emp pf bf nf).bins
      = forcedLoop (ceilDiv (emp.length - 1 + 1) MIN_BINS) (emp.length - 1)
          (emp.length - 1 + 1) 0
    ∧ (emp.length - 1 + 1 = 3 ∨ 5 ≤ emp.length - 1 + 1 →
        3 ≤ (createOptimalBins emp pf bf nf).bins.length)
    ∧ (emp.length - 1 + 1 = 2 ∨ emp.length - 1 + 1 = 4 →
        (createOptimalBins emp pf bf nf).bins.length = 2) := by
  have hbins : (createOptimalBins emp pf bf nf).bins
      = forcedLoop (ceilDiv (emp.length - 1 + 1) MIN_BINS) (emp.length - 1)
          (emp.length - 1 + 1) 0 := by
    rw [createOptimalBins_eq, if_pos hg]
    rfl
  have hstep : 0 < ceilDiv (emp.length - 1 + 1) MIN_BINS :=
    Nat.div_pos (by norm_num [MIN_BINS]) (by norm_num [MIN_BINS])
  have hcount : (createOptimalBins emp pf bf nf).bins.length
      = ceilDiv (emp.length - 1 + 1) (ceilDiv (emp.length - 1 + 1) MIN_BINS) := by
    rw [hbins, forcedLoop_length _ _ hstep _ 0 (by omega)]
    norm_num
  refine ⟨hbins, ?_, ?_⟩
  · intro hM
    rw [hcount]
    set M := emp.length - 1 + 1 with hMdef
    obtain ⟨q, r, hqr, hr⟩ : ∃ q r, M + 2 = 3 * q + r ∧ r < 3 :=
      ⟨(M + 2) / 3, (M + 2) % 3, by omega, Nat.mod_lt _ (by norm_num)⟩
    have hstepval : ceilDiv M MIN_BINS = q := by
      unfold ceilDiv
      norm_num [MIN_BINS]
      omega
    rw [hstepval]
    have hq : 0 < q := by omega
    unfold ceilDiv
    rw [Nat.le_div_iff_mul_le hq]
    omega
  · intro hM
    rw [hcount]
    rcases hM with h2 | h4
    · rw [h2]; decide
    · rw [h4]; decide

/-- C5, counterexample: the empirical histogram `[5, 5]` (a sample with the
two distinct defect counts 0 and 1) with all three expected vectors `[10,10]`
makes the greedy pass yield 2 bins (< 3), the forced re-split fires, and the
final result still has only 2 bins — not the claimed ≥ 3. -/
theorem C5_counterexample :
    (greedyBins [(10 : ℚ), 10] [(10 : ℚ), 10] [(10 : ℚ), 10] 1 2 0).length = 2
    ∧ ((createOptimalBins [(5 : ℚ), 5] [(10 : ℚ), 10] [(10 : ℚ), 10]
        [(10 : ℚ), 10]).bins).length = 2 := by
  constructor
  · norm_num [greedyBins, growEnd, MIN_EXPECTED_FREQ]
  · norm_num [createOptimalBins_eq, greedyBins, growEnd, forcedLoop, ceilDiv,
      MIN_BINS, MIN_EXPECTED_FREQ, createBinnedFrequencies]

/-- C5, witness for the amended theorem at the histogram `[1,1,1,1,1]`
(support size 5, zero expected vectors force the greedy pass to 1 bin). -/
theorem C5_witness :
    (createOptimalBins [(1 : ℚ), 1, 1, 1, 1] [0, 0, 0, 0, 0] [0, 0, 0, 0, 0]
        [0, 0, 0, 0, 0]).bins
      = forcedLoop
          (ceilDiv (([(1 : ℚ), 1, 1, 1, 1] : List ℚ).length - 1 + 1) MIN_BINS)
          (([(1 : ℚ), 1, 1, 1, 1] : List ℚ).length - 1)
          (([(1 : ℚ), 1, 1, 1, 1] : List ℚ).length - 1 + 1) 0
    ∧ (([(1 : ℚ), 1, 1, 1, 1] : List ℚ).length - 1 + 1 = 3
        ∨ 5 ≤ ([(1 : ℚ), 1, 1, 1, 1] : List ℚ).length - 1 + 1 →
        3 ≤ (createOptimalBins [(1 : ℚ), 1, 1, 1, 1] [0, 0, 0, 0, 0]
          [0, 0, 0, 0, 0] [0, 0, 0, 0, 0]).bins.length)
    ∧ (([(1 : ℚ), 1, 1, 1, 1] : List ℚ).length - 1 + 1 = 2
        ∨ ([(1 : ℚ), 1, 1, 1, 1] : List ℚ).length - 1 + 1 = 4 →
        (createOptimalBins [(1 : ℚ), 1, 1, 1, 1] [0, 0, 0, 0, 0] [0, 0, 0, 0, 0]
          [0, 0, 0, 0, 0]).bins.length = 2) :=
  C5_forced_resplit [(1 : ℚ), 1, 1, 1, 1] [0, 0, 0, 0, 0] [0, 0, 0, 0, 0]
    [0, 0, 0, 0, 0]
    (by norm_num [greedyBins, growEnd, MIN_EXPECTED_FREQ, MIN_BINS])

/-! ### Claim C6 -/

theorem bestStep_of_rejected (acc c : DistEntry) (hacc : acc.isAccepted = false)
    (hc : c.isAccepted = false) :
    bestStep acc c = if c.chi2 < acc.chi2 then c else acc := by
  unfold bestStep
  simp [hacc, hc]

theorem bestStep_of_accepted (acc c : DistEntry) (hacc : acc.isAccepted = true)
    (hc : c.isAccepted = true) :
    bestStep acc c = if acc.pValue < c.pValue then c else acc := by
  unfold bestStep
  simp [hacc, hc]

theorem foldl_bestStep_rejected (l : List DistEntry) :
    ∀ acc, acc.isAccepted = false → (∀ r ∈ l, r.isAccepted = false) →
      (l.foldl bestStep acc = acc ∨ l.foldl bestStep acc ∈ l)
      ∧ (l.foldl bestStep acc).chi2 ≤ acc.chi2
      ∧ ∀ r ∈ l, (l.foldl bestStep acc).chi2 ≤ r.chi2 := by
  induction l with
  | nil => intro acc _ _; simp
  | cons c t ih =>
    intro acc hacc hall
    have hc : c.isAccepted = false := hall c (List.mem_cons_self c t)
    have htail : ∀ r ∈ t, r.isAccepted = false :=
      fun r hr => hall r (List.mem_cons_of_mem c hr)
    rw [List.foldl_cons, bestStep_of_rejected acc c hacc hc]
    by_cases hlt : c.chi2 < acc.chi2
    · rw [if_pos hlt]
      obtain ⟨hmem, hle, hall'⟩ := ih c hc htail
      refine ⟨?_, le_trans hle (le_of_lt hlt), ?_⟩
      · rcases hmem with h | h
        · exact Or.inr (by rw [h]; exact List.mem_cons_self c t)
        · exact Or.inr (List.mem_cons_of_mem c h)
      · intro r hr
        rcases List.mem_cons.1 hr with h | h
        · exact h ▸ hle
        · exact hall' r h
    · rw [if_neg hlt]
      obtain ⟨hmem, hle, hall'⟩ := ih acc hacc htail
      refine ⟨?_, hle, ?_⟩
      · rcases hmem with h | h
        · exact Or.inl h
        · exact Or.inr (List.mem_cons_of_mem c h)
      · intro r hr
        rcases List.mem_cons.1 hr with h | h
        · exact h ▸ le_trans hle (not_lt.1 hlt)
        · exact hall' r h

theorem foldl_bestStep_accepted (l : List DistEntry) :
    ∀ acc, acc.isAccepted = true → (∀ r ∈ l, r.isAccepted = true) →
      (l.foldl bestStep acc = acc ∨ l.foldl bestStep acc ∈ l)
      ∧ acc.pValue ≤ (l.foldl bestStep acc).pValue
      ∧ ∀ r ∈ l, r.pValue ≤ (l.foldl bestStep acc).pValue := by
  induction l with
  | nil => intro acc _ _; simp
  | cons c t ih =>
    intro acc hacc hall
    have hc : c.isAccepted = true := hall c (List.mem_cons_self c t)
    have htail : ∀ r ∈ t, r.isAccepted = true :=
      fun r hr => hall r (List.mem_cons_of_mem c hr)
    rw [List.foldl_cons, bestStep_of_accepted acc c hacc hc]
    by_cases hlt : acc.pValue < c.pValue
    · rw [if_pos hlt]
      obtain ⟨hmem, hle, hall'⟩ := ih c hc htail
      refine ⟨?_, le_trans (le_of_lt hlt) hle, ?_⟩
      · rcases hmem with h | h
        · exact Or.inr (by rw [h]; exact List.mem_cons_self c t)
        · exact Or.inr (List.mem_cons_of_mem c h)
      · intro r hr
        rcases List.mem_cons.1 hr with h | h
        · exact h ▸ hle
        · exact hall' r h
    · rw [if_neg hlt]
      obtain ⟨hmem, hle, hall'⟩ := ih acc hacc htail
      refine ⟨?_, hle, ?_⟩
      · rcases hmem with h | h
        · exact Or.inl h
        · exact Or.inr (List.mem_cons_of_mem c h)
      · intro r hr
        rcases List.mem_cons.1 hr with h | h
        · exact h ▸ le_trans (not_lt.1 hlt) hle
        · exact hall' r h

/-- C6, amended: the live selector folds `bestStep` pairwise.  When every
evaluable result is rejected it returns a result with minimal chi-square —
not the claimed one with highest p-value; when every result is accepted it
returns one with maximal p-value; ties keep the earlier candidate (there is
no lower-chi-square tie-break), and the pool is the evaluable results, not
all three candidates. -/
theorem C6_selector (l : List DistEntry) (hne : l ≠ []) :
    ((∀ r ∈ l, r.isAccepted = false) →
      ∃ b, bestSelect l = some b ∧ b ∈ l ∧ ∀ r ∈ l, b.chi2 ≤ r.chi2)
    ∧ ((∀ r ∈ l, r.isAccepted = true) →
      ∃ b, bestSelect l = some b ∧ b ∈ l ∧ ∀ r ∈ l, r.pValue ≤ b.pValue) := by
  cases l with
  | nil => exact absurd rfl hne
  | cons h t =>
    constructor
    · intro hall
      obtain ⟨hmem, hle, hall'⟩ := foldl_bestStep_rejected t h
        (hall h (List.mem_cons_self h t))
        (fun r hr => hall r (List.mem_cons_of_mem h hr))
      refine ⟨t.foldl bestStep h, rfl, ?_, ?_⟩
      · rcases hmem with he | he
        · exact by rw [he]; exact List.mem_cons_self h t
        · exact List.mem_cons_of_mem h he
      · intro r hr
        rcases List.mem_cons.1 hr with he | he
        · exact he ▸ hle
        · exact hall' r he
    · intro hall
      obtain ⟨hmem, hle, hall'⟩ := foldl_bestStep_accepted t h
        (hall h (List.mem_cons_self h t))
        (fun r hr => hall r (List.mem_cons_of_mem h hr))
      refine ⟨t.foldl bestStep h, rfl, ?_, ?_⟩
      · rcases hmem with he | he
        · exact by rw [he]; exact List.mem_cons_self h t
        · exact List.mem_cons_of_mem h he
      · intro r hr
        rcases List.mem_cons.1 hr with he | he
        · exact he ▸ hle
        · exact hall' r he

/-- C6, counterexample: (i) with both results rejected, the fold picks the
lower-chi-square result even though its p-value is lower — the claim demands
the highest p-value among all candidates when none is accepted; (ii) with
both accepted at equal p-values, the fold keeps the first result even though
the second has lower chi-square — the claim demands the lower-chi-square
tie-break. -/
theorem C6_counterexample :
    (bestSelect [⟨"Poisson", 10, 3, 5, 7, 1 / 50, 1, false⟩,
        ⟨"Binomial", 5, 3, 5, 7, 1 / 100, 2, false⟩]
      = some ⟨"Binomial", 5, 3, 5, 7, 1 / 100, 2, false⟩
      ∧ (1 / 100 : ℚ) < 1 / 50)
    ∧ (bestSelect [⟨"Poisson", 10, 3, 5, 7, 1 / 10, 1, true⟩,
        ⟨"Binomial", 5, 3, 5, 7, 1 / 10, 2, true⟩]
      = some ⟨"Poisson", 10, 3, 5, 7, 1 / 10, 1, true⟩
      ∧ (5 : ℚ) < 10) := by
  refine ⟨⟨?_, by norm_num⟩, ⟨?_, by norm_num⟩⟩
  · norm_num [bestSelect, bestStep]
  · norm_num [bestSelect, bestStep]

/-- C6, witness for the amended theorem on a concrete all-rejected pool. -/
theorem C6_witness :
    ∃ b, bestSelect [⟨"Poisson", 10, 3, 5, 7, 1 / 50, 1, false⟩,
        ⟨"Binomial", 5, 3, 5, 7, 1 / 100, 2, false⟩] = some b
      ∧ b ∈ [⟨"Poisson", 10, 3, 5, 7, 1 / 50, 1, false⟩,
          ⟨"Binomial", 5, 3, 5, 7, 1 / 100, 2, false⟩]
      ∧ ∀ r ∈ [(⟨"Poisson", 10, 3, 5, 7, 1 / 50, 1, false⟩ : DistEntry),
          ⟨"Binomial", 5, 3, 5, 7, 1 / 100, 2, false⟩], b.chi2 ≤ r.chi2 :=
  (C6_selector _ (by simp)).1
    (by intro r hr
        simp only [List.mem_cons, List.not_mem_nil, or_false] at hr
        rcases hr with h | h <;> rw [h])

/-! ### Claim C7 -/

theorem mkEntry_isAccepted (cdf inv : ℚ → ℕ → ℚ) (α : ℚ) (name : String)
    (numParams : ℕ) (obs exp : List ℚ) (e : DistEntry)
    (h : mkEntry cdf inv α name numParams obs exp = some e) :
    e.isAccepted = decide (α ≤ e.pValue) := by
  revert h
  unfold mkEntry
  cases hchi : (computeChiSquare obs exp numParams).chi2 with
  | none => simp [hchi]
  | some c =>
    by_cases hdf : 0 < (computeChiSquare obs exp numParams).df
    · simp only [hchi, hdf, if_true, Option.some.injEq]
      intro h
      rw [← h]
    · simp [hchi, hdf]

theorem mkEntry_map_inv_invariant (cdf inv inv' : ℚ → ℕ → ℚ) (α : ℚ)
    (name : String) (numParams : ℕ) (obs exp : List ℚ) :
    (mkEntry cdf inv α name numParams obs exp).map
        (fun r => (r.name, r.isAccepted))
      = (mkEntry cdf inv' α name numParams obs exp).map
        (fun r => (r.name, r.isAccepted)) := by
  unfold mkEntry
  cases hchi : (computeChiSquare obs exp numParams).chi2 with
  | none => simp [hchi]
  | some c =>
    by_cases hdf : 0 < (computeChiSquare obs exp numParams).df
    · simp [hchi, hdf]
    · simp [hchi, hdf]

theorem filterMap_map_congr₃ (f : DistEntry → String × Bool)
    (a b c a' b' c' : Option DistEntry)
    (ha : a.map f = a'.map f) (hb : b.map f = b'.map f)
    (hc : c.map f = c'.map f) :
    ([a, b, c].filterMap id).map f = ([a', b', c'].filterMap id).map f := by
  cases a <;> cases a' <;> cases b <;> cases b' <;> cases c <;> cases c' <;>
    simp_all

/-- C7: for every distribution that reaches the `results` list (finite
chi-square, `df ≥ 1`), the acceptance flag equals the canonical p-value
check `pValue ≥ significanceLevel` — in particular the exact boundary
`pValue = significanceLevel` is accepted — and the per-distribution
acceptance flags do not depend on the chi-square quantile function
(`criticalValue`) at all: replacing `inv` by any other quantile function
leaves every `(name, isAccepted)` pair unchanged. -/
theorem C7_acceptance_by_pvalue (cdf inv inv' : ℚ → ℕ → ℚ) (α : ℚ)
    (obs pf bf nf : List ℚ) :
    ((analyzeDistributions cdf inv α obs pf bf nf).results.all
        fun r => r.isAccepted == decide (α ≤ r.pValue)) = true
    ∧ (analyzeDistributions cdf inv α obs pf bf nf).results.map
        (fun r => (r.name, r.isAccepted))
      = (analyzeDistributions cdf inv' α obs pf bf nf).results.map
        (fun r => (r.name, r.isAccepted)) := by
  constructor
  · rw [List.all_eq_true]
    intro r hr
    rw [analyzeDistributions_results] at hr
    obtain ⟨o, ho, hid⟩ := List.mem_filterMap.1 hr
    simp only [id_eq] at hid
    subst hid
    simp only [List.mem_cons, List.not_mem_nil, or_false] at ho
    rcases ho with h | h | h
    · rw [beq_iff_eq]
      exact mkEntry_isAccepted cdf inv α "Poisson" 1 obs pf r h.symm
    · rw [beq_iff_eq]
      exact mkEntry_isAccepted cdf inv α "Binomial" 2 obs bf r h.symm
    · rw [beq_iff_eq]
      exact mkEntry_isAccepted cdf inv α "NegativeBinomial" 2 obs nf r h.symm
  · rw [analyzeDistributions_results, analyzeDistributions_results]
    exact filterMap_map_congr₃ _ _ _ _ _ _ _
      (mkEntry_map_inv_invariant cdf inv inv' α "Poisson" 1 obs pf)
      (mkEntry_map_inv_invariant cdf inv inv' α "Binomial" 2 obs bf)
      (mkEntry_map_inv_invariant cdf inv inv' α "NegativeBinomial" 2 obs nf)

/-! ### Claims C8 and C9 -/

/-- C8: when outlier filtering empties the sample (on a non-empty, valid
record set), the analysis throws exactly the descriptive
"empty after outlier filtering" error, and the state update preserves the
previous `AnalysisOut` unchanged — no partial result is emitted. -/
theorem C8_empty_filter_atomic (J : Jstat) (data : List Record) (α : ℚ)
    (prev : AnalysisOut) (st : Stats) (hne : data ≠ [])
    (hval : data.all rowValid = true)
    (hst : calculateBasicStatistics J
        ((data.map fun row => row.defects).map (fun (d : ℕ) => (d : ℚ)))
        (((data.map fun row => row.total).sum : ℕ) : ℚ) = Except.ok st)
    (hfil : filterOutliers J (data.map fun row => row.defects)
        st.avgN st.binomialP = []) :
    runAnalysisBody J data false α = Except.error msgEmptyAfterFilter
    ∧ mainEffect J prev data false α = prev := by
  have hbody : runAnalysisBody J data false α = Except.error msgEmptyAfterFilter := by
    simp only [runAnalysisBody]
    rw [if_neg hne, if_neg (by simp [hval]), hst]
    simp [hfil]
  refine ⟨hbody, ?_⟩
  unfold mainEffect
  rw [if_neg hne, hbody]

/-- C9: a record set with at least one valid element is never rejected on
sample-size grounds — the statistics step always succeeds, and whenever the
post-filter sample is non-empty the whole pipeline returns an analysis
result (`Except.ok`), with no minimum-record-count check anywhere. -/
theorem C9_no_sample_size_rejection (J : Jstat) (data : List Record) (α : ℚ)
    (io : Bool) (hne : data ≠ []) (hval : data.all rowValid = true) :
    (∃ st, calculateBasicStatistics J
        ((data.map fun row => row.defects).map (fun (d : ℕ) => (d : ℚ)))
        (((data.map fun row => row.total).sum : ℕ) : ℚ) = Except.ok st)
    ∧ ∀ st, calculateBasicStatistics J
        ((data.map fun row => row.defects).map (fun (d : ℕ) => (d : ℚ)))
        (((data.map fun row => row.total).sum : ℕ) : ℚ) = Except.ok st →
      (if io then data.map fun row => row.defects
       else filterOutliers J (data.map fun row => row.defects)
         st.avgN st.binomialP) ≠ [] →
      ∃ a, runAnalysisBody J data io α = Except.ok a := by
  constructor
  · obtain ⟨st, hok, _, _, _⟩ := (C3_negBinomial_estimator J
      ((data.map fun row => row.defects).map (fun (d : ℕ) => (d : ℚ)))
      (((data.map fun row => row.total).sum : ℕ) : ℚ)
      (by
        intro hnil
        exact hne (by simpa using List.map_eq_nil_iff.1 (List.map_eq_nil_iff.1 hnil))
      )
      (by
        intro v hv
        obtain ⟨d, _, rfl⟩ := List.mem_map.1 hv
        positivity)
      (by positivity)).1
    exact ⟨st, hok⟩
  · intro st hst hfil
    simp only [runAnalysisBody]
    rw [if_neg hne, if_neg (by simp [hval]), hst]
    cases io with
    | false =>
      simp only [Bool.false_eq_true, if_false]
      rw [if_neg (by simpa using hfil)]
      exact ⟨_, rfl⟩
    | true =>
      simp only [if_true]
      rw [if_neg (by simpa using hfil)]
      exact ⟨_, rfl⟩

/-- C8, witness: two records `{total 3, defects 1}`, `{total 2, defects 1}`
with a binomial PMF stub that is constantly 1, so the tail bound is 0 and
every defect count is filtered out. -/
theorem C8_witness :
    runAnalysisBody
        ⟨fun _ _ => 0, fun _ _ => 1, fun _ _ => 0, fun _ _ _ => 1,
          fun _ _ _ => 0, fun _ => 0⟩ [⟨3, 1⟩, ⟨2, 1⟩] false (1 / 20)
      = Except.error msgEmptyAfterFilter
    ∧ mainEffect
        ⟨fun _ _ => 0, fun _ _ => 1, fun _ _ => 0, fun _ _ _ => 1,
          fun _ _ _ => 0, fun _ => 0⟩
        ⟨"", [], [], [], [], 0, 0, 0, 0, 0, 0, 0, 0, false, [], (0, 0), none⟩
        [⟨3, 1⟩, ⟨2, 1⟩] false (1 / 20)
      = ⟨"", [], [], [], [], 0, 0, 0, 0, 0, 0, 0, 0, false, [], (0, 0), none⟩ :=
  C8_empty_filter_atomic
    ⟨fun _ _ => 0, fun _ _ => 1, fun _ _ => 0, fun _ _ _ => 1,
      fun _ _ _ => 0, fun _ => 0⟩ [⟨3, 1⟩, ⟨2, 1⟩] (1 / 20)
    ⟨"", [], [], [], [], 0, 0, 0, 0, 0, 0, 0, 0, false, [], (0, 0), none⟩
    ⟨2, 1, 0, 0, 2 / 5, (1, 1), some (0, 0), 1, 2 / 5, 3, 1, 1 / 2, false⟩
    (by simp) (by decide)
    (by norm_num [calculateBasicStatistics, negBinomialParams, nbValidate,
        jsRound, Int.floor_eq_iff, Stats.mk.injEq, Prod.mk.injEq]
        intro h
        simp at h)
    (by norm_num [filterOutliers, calculateOutlierBoundBinomial,
      outlierLoopBinomial, leBound, OUTLIER_THRESHOLD_PROBABILITY,
      List.filter])

/-- C9, witness: a single valid record still yields an analysis result. -/
theorem C9_witness :
    ∃ a, runAnalysisBody
        ⟨fun _ _ => 0, fun _ _ => 1, fun _ _ => 0, fun _ _ _ => 1,
          fun _ _ _ => 0, fun _ => 0⟩ [⟨2, 1⟩] true (1 / 20)
      = Except.ok a := by
  obtain ⟨⟨st, hst⟩, h2⟩ := C9_no_sample_size_rejection
    ⟨fun _ _ => 0, fun _ _ => 1, fun _ _ => 0, fun _ _ _ => 1,
      fun _ _ _ => 0, fun _ => 0⟩ [⟨2, 1⟩] (1 / 20) true (by simp) (by decide)
  exact h2 st hst (by simp)

/-! ### Claim C10 -/

theorem negBinFreqEntry_bounds (J : Jstat) (k : ℕ) (r p len : ℚ)
    (hlen : 0 ≤ len) :
    0 ≤ negBinFreqEntry J k r p len ∧ negBinFreqEntry J k r p len ≤ len * 2 := by
  simp only [negBinFreqEntry]
  split_ifs with h1 h2 h3 h4 <;> constructor <;>
    first
      | linarith
      | nlinarith [mul_nonneg (not_lt.1 h3) hlen]
      | nlinarith [mul_nonneg (not_lt.1 h2) hlen]

/-- C10: every entry of the Negative-Binomial expected-frequency vector built
by `calculateTheoreticalFrequencies` is clipped to zero on invalid parameters
or a negative PMF value, and additionally zeroed whenever the computed
frequency exceeds twice the post-filter sample size — hence every entry lies
in `[0, 2·sampleSize]`, for any PMF stub whatsoever. -/
theorem C10_negBinomial_clamp (J : Jstat) (filteredDefects : List ℕ)
    (st : Stats) :
    ∀ x ∈ (calculateTheoreticalFrequencies J filteredDefects st).2.2,
      0 ≤ x ∧ x ≤ (filteredDefects.length : ℚ) * 2 := by
  intro x hx
  simp only [calculateTheoreticalFrequencies] at hx
  obtain ⟨k, _, rfl⟩ := List.mem_map.1 hx
  exact negBinFreqEntry_bounds J k st.negBinomialR st.negBinomialP
    ((filteredDefects.length : ℕ) : ℚ) (by positivity)

/-- C10, witness at the one-point sample `[0]` with a PMF stub. -/
theorem C10_witness :
    0 ≤ negBinFreqEntry
        ⟨fun _ _ => 0, fun _ _ => 1, fun _ _ => 0, fun _ _ _ => 1,
          fun _ _ _ => 0, fun _ => 0⟩ 0
        (⟨1, 0, 0, 0, 0, (0, 0), none, 0, 0, 1, 1, 1 / 2, false⟩ : Stats).negBinomialR
        (⟨1, 0, 0, 0, 0, (0, 0), none, 0, 0, 1, 1, 1 / 2, false⟩ : Stats).negBinomialP
        ((([0] : List ℕ).length : ℕ) : ℚ)
    ∧ negBinFreqEntry
        ⟨fun _ _ => 0, fun _ _ => 1, fun _ _ => 0, fun _ _ _ => 1,
          fun _ _ _ => 0, fun _ => 0⟩ 0
        (⟨1, 0, 0, 0, 0, (0, 0), none, 0, 0, 1, 1, 1 / 2, false⟩ : Stats).negBinomialR
        (⟨1, 0, 0, 0, 0, (0, 0), none, 0, 0, 1, 1, 1 / 2, false⟩ : Stats).negBinomialP
        ((([0] : List ℕ).length : ℕ) : ℚ)
      ≤ (([0] : List ℕ).length : ℚ) * 2 :=
  C10_negBinomial_clamp
    ⟨fun _ _ => 0, fun _ _ => 1, fun _ _ => 0, fun _ _ _ => 1,
      fun _ _ _ => 0, fun _ => 0⟩ [0]
    ⟨1, 0, 0, 0, 0, (0, 0), none, 0, 0, 1, 1, 1 / 2, false⟩ _
    (by simp [calculateTheoreticalFrequencies, maxList])

end DefectAnalyzer
